import Mathlib

/-!
Verification of the surgical document-editing core of the resume-maker
application: the Document Model (sectional parsing, span extraction and
replacement), the Self-Healing Compiler loop, the Apply Engine, the static
health check, and the UI snapshot history.

Documents are modelled as `List Char` (one entry per byte of source text),
so that "byte for byte" equalities are plain list equalities and every
definition is executable.
-/

/-- Opening brace character, by code point. -/
def obrace : Char := Char.ofNat 123

/-- Closing brace character, by code point. -/
def cbrace : Char := Char.ofNat 125

/-- Modelled from the spec: the section heading marker of the Document
Model's marker vocabulary (the LaTeX section-heading command followed by its
opening brace).  The backend parser itself is absent from the visible
source; the spec describes boundary scanning over heading commands. -/
def marker : List Char := ['\\', 's', 'e', 'c', 't', 'i', 'o', 'n', obrace]

/-- Fuelled boundary scanner: splits a source text into the preamble (text
before the first heading marker) and the list of chunks, one per heading,
each chunk holding the text strictly between its marker and the next marker
(or the end of the document).  Fuel decreases by one per step and at least
one character is consumed per step, so `fuel = length` always suffices. -/
def chunksF : Nat → List Char → List Char × List (List Char)
  | 0, s => (s, [])
  | fuel + 1, s =>
    if marker.isPrefixOf s then
      let r := chunksF fuel (s.drop marker.length)
      ([], r.1 :: r.2)
    else
      match s with
      | [] => ([], [])
      | c :: rest =>
        let r := chunksF fuel rest
        (c :: r.1, r.2)

/-- Modelled from the spec: boundary scan of a whole document.  Returns the
preamble and the chunk list. -/
def chunks (s : List Char) : List Char × List (List Char) := chunksF s.length s

/-- Reassemble a chunk list, reattaching each chunk's heading marker. -/
def joinMarked (cs : List (List Char)) : List Char :=
  (cs.map (fun c => marker ++ c)).flatten

/-- Name of the section a chunk begins: the characters up to the closing
brace of its heading. -/
def chunkName (c : List Char) : List Char :=
  c.takeWhile (fun ch => ch != cbrace)

/-- Modelled from the spec: a Section is a named contiguous span of the
document, identified by a stable name and a start/end offset pair. -/
structure Section where
  name  : List Char
  start : Nat
  stop  : Nat
deriving DecidableEq, Repr

/-- Build Section records for a chunk list whose first heading marker sits
at offset `base` of the document.  Each section's span runs from its
heading marker to the start of the next heading (or the end of the
document), so consecutive sections are adjacent. -/
def mkSections : Nat → List (List Char) → List Section
  | _, [] => []
  | base, c :: cs =>
    ⟨chunkName c, base, base + marker.length + c.length⟩ ::
      mkSections (base + marker.length + c.length) cs

/-- Modelled from the spec: `parseSections(source)` returns the ordered
list of sections of the document. -/
def parseSections (src : List Char) : List Section :=
  mkSections (chunks src).1.length (chunks src).2

/-- Byte span of a section inside the source it was parsed from. -/
def spanAt (src : List Char) (s : Section) : List Char :=
  (src.drop s.start).take (s.stop - s.start)

/-- Modelled from the spec: the error raised when a named section is absent
from the document. -/
inductive SectionError where
  | sectionNotFound
deriving DecidableEq, Repr

/-- Find the first chunk bearing a given section name and return its full
span (heading marker included). -/
def extractInChunks (n : List Char) : List (List Char) → Option (List Char)
  | [] => none
  | c :: cs =>
    if chunkName c = n then some (marker ++ c) else extractInChunks n cs

/-- Modelled from the spec: `extractSpan(source, sectionNameOrNull)` returns
the exact text of the named section, or the entire document text if the
selector is null ("Full Document"). -/
def extractSpan (src : List Char) (sel : Option (List Char)) :
    Option (List Char) :=
  match sel with
  | none => some src
  | some n => extractInChunks n (chunks src).2

/-- Replace the span of the first chunk bearing a given name by `x`,
keeping every other byte; `none` when no chunk has that name. -/
def replaceInChunks (n x : List Char) : List (List Char) → Option (List Char)
  | [] => none
  | c :: cs =>
    if chunkName c = n then some (x ++ joinMarked cs)
    else (replaceInChunks n x cs).map (fun r => marker ++ c ++ r)

/-- Modelled from the spec: `replaceSpan(source, sectionNameOrNull, newText)`
substitutes only the addressed span, preserving every byte outside it
verbatim; a missing section name is the error `SectionNotFound`, and a null
selector replaces the whole document. -/
def replaceSpan (src : List Char) (sel : Option (List Char)) (x : List Char) :
    Except SectionError (List Char) :=
  match sel with
  | none => .ok x
  | some n =>
    match replaceInChunks n x (chunks src).2 with
    | some r => .ok ((chunks src).1 ++ r)
    | none => .error .sectionNotFound

/-- Modelled from the spec: result of one compiler invocation — ok flag,
PDF bytes when ok, and a diagnostic log used to drive self-healing. -/
structure CompileResult where
  ok  : Bool
  pdf : Option (List Nat)
  log : List Char
deriving DecidableEq, Repr

/-- Outcome of the self-healing loop: final source, terminal compile
result, and the number of generative repair calls performed (instrumented
so that the retry budget can be stated). -/
structure RepairOutcome where
  src      : List Char
  result   : CompileResult
  genCalls : Nat
deriving DecidableEq, Repr

/-- Modelled from the spec: `compileWithRepair(source, maxAttempts)` —
compile; if ok return immediately with no generative calls; otherwise,
while attempts remain, ask the generative service to repair the source
using the diagnostic log and retry; when the budget is exhausted return
the last attempted source with the last failing result.  The budget is the
first argument so that the recursion is structural on it. -/
def compileWithRepair (compile : List Char → CompileResult)
    (repair : List Char → List Char → List Char) :
    Nat → List Char → RepairOutcome
  | 0, src => ⟨src, compile src, 0⟩
  | fuel + 1, src =>
    let r := compile src
    if r.ok then ⟨src, r, 0⟩
    else
      let out := compileWithRepair compile repair fuel (repair src r.log)
      ⟨out.src, out.result, out.genCalls + 1⟩

/-- Source reached after exhausting `fuel` repair rounds from `src`. -/
def lastAttempt (compile : List Char → CompileResult)
    (repair : List Char → List Char → List Char) :
    Nat → List Char → List Char
  | 0, src => src
  | fuel + 1, src => lastAttempt compile repair fuel (repair src (compile src).log)

/-- Modelled from the spec: one proposed replacement for the target span,
with an id unique within its session, an intent label, a human-readable
summary, and the literal replacement text. -/
structure Candidate where
  id      : Nat
  intent  : List Char
  summary : List Char
  text    : List Char
deriving DecidableEq, Repr

/-- Modelled from the spec: a proposal session — opaque id, originating
instruction, target section name (or null for full document), snapshot of
the document at creation time, and the candidate list. -/
structure ProposalSession where
  sid         : Nat
  instruction : List Char
  target      : Option (List Char)
  snapshot    : List Char
  candidates  : List Candidate
deriving DecidableEq, Repr

/-- Modelled from the spec: the error kinds the Apply Engine can surface. -/
inductive ApplyError where
  | sessionNotFound
  | candidateNotFound
  | sectionNotFound
deriving DecidableEq, Repr

/-- Modelled from the spec: `apply(sessionId, candidateId, currentDocumentText)`
— look up the session, look up the candidate, splice the candidate's text
into the current document at the session's target section via `replaceSpan`
(passing `SectionNotFound` through), then run the Self-Healing Compiler on
the spliced result and return the new source with its compile result. -/
def apply (sessions : List ProposalSession) (sid cid : Nat)
    (current : List Char) (compile : List Char → CompileResult)
    (repair : List Char → List Char → List Char) (maxAttempts : Nat) :
    Except ApplyError (List Char × CompileResult) :=
  match sessions.find? (fun s => s.sid == sid) with
  | none => .error .sessionNotFound
  | some sess =>
    match sess.candidates.find? (fun c => c.id == cid) with
    | none => .error .candidateNotFound
    | some cand =>
      match replaceSpan current sess.target cand.text with
      | .error _ => .error .sectionNotFound
      | .ok spliced =>
        let out := compileWithRepair compile repair maxAttempts spliced
        .ok (out.src, out.result)

/-- UI state touched by `applyVariant` in the frontend: the working
document (`latexCode`) and the chat transcript (`messages`, kept abstract
as a list of texts). -/
structure AppState where
  latexCode : List Char
  messages  : List (List Char)
deriving DecidableEq, Repr

/-- Chat message appended by `applyVariant` on success. -/
def appliedMsg : List Char := ['A', 'p', 'p', 'l', 'i', 'e', 'd', '!']

/-- Chat message appended by `applyVariant` when the backend call fails. -/
def failMsg : List Char :=
  ['F', 'a', 'i', 'l', 'e', 'd', ' ', 't', 'o', ' ', 'a', 'p', 'p', 'l', 'y']

/-- The frontend's `applyVariant` handler: the backend call is modelled by
its response value.  On success it stores the returned document and
appends a success message; on any failure it only appends an error
message, leaving `latexCode` untouched (the source's catch branch). -/
def applyVariant (st : AppState)
    (resp : Except ApplyError (List Char × CompileResult)) : AppState :=
  match resp with
  | .ok (ltx, _) =>
    { st with latexCode := ltx, messages := st.messages ++ [appliedMsg] }
  | .error _ => { st with messages := st.messages ++ [failMsg] }

/-- A snapshot taken by the frontend's `handleSnapshot`: id, timestamp,
document source, and PDF url. -/
structure Snapshot where
  id        : Nat
  timestamp : List Char
  latex     : List Char
  pdf       : List Char
deriving DecidableEq, Repr

/-- The frontend's `handleSnapshot` update of the snapshot list: prepend
the new snapshot and keep the first five entries (`[newSnapshot, ...prev]`
followed by `slice(0, 5)`). -/
def handleSnapshot (snap : Snapshot) (prev : List Snapshot) : List Snapshot :=
  (snap :: prev).take 5

/-- Modelled from the spec: the kinds of discrete issue the static health
check reports. -/
inductive IssueKind where
  | unbalancedBraces
  | unbalancedEnvironments
  | emptySection
deriving DecidableEq, Repr

/-- Modelled from the spec: one discrete issue, kind plus optional
location. -/
structure Issue where
  kind     : IssueKind
  location : Option Nat
deriving DecidableEq, Repr

/-- Modelled from the spec: the health report — boolean overall health,
numeric score in [0,100], and the issue list, all derived purely from the
document text. -/
structure HealthReport where
  is_healthy : Bool
  score      : Nat
  issues     : List Issue
deriving DecidableEq, Repr

/-- Left-to-right brace-balance scan at depth `d`, skipping escaped
characters; `true` iff every opening brace is matched. -/
def braceScan : List Char → Nat → Bool
  | [], d => d == 0
  | c :: rest, d =>
    if c = '\\' then
      match rest with
      | [] => d == 0
      | _ :: rest2 => braceScan rest2 d
    else if c = obrace then braceScan rest (d + 1)
    else if c = cbrace then
      match d with
      | 0 => false
      | d' + 1 => braceScan rest d'
    else braceScan rest d

/-- Number of occurrences of a pattern in a text (naive scan). -/
def countSub (pat : List Char) : List Char → Nat
  | [] => 0
  | c :: rest => (if pat.isPrefixOf (c :: rest) then 1 else 0) + countSub pat rest

/-- Environment opener marker. -/
def beginMarker : List Char := ['\\', 'b', 'e', 'g', 'i', 'n', obrace]

/-- Environment closer marker. -/
def endMarker : List Char := ['\\', 'e', 'n', 'd', obrace]

/-- Body of a chunk: the text after the closing brace of its heading. -/
def chunkBody (c : List Char) : List Char :=
  (c.dropWhile (fun ch => ch != cbrace)).drop 1

/-- Whether a text is entirely whitespace. -/
def isBlank (l : List Char) : Bool :=
  l.all (fun ch => ch == ' ' || ch == '\n' || ch == '\t' || ch == '\r')

/-- Modelled from the spec: `checkHealth(source)` — a pure, deterministic
static check of brace balance, environment balance, and empty sections; it
takes only the source text, so by construction it can consult neither the
generative service nor the compiler. -/
def checkHealth (src : List Char) : HealthReport :=
  let issues : List Issue :=
    (if braceScan src 0 then [] else [⟨IssueKind.unbalancedBraces, none⟩]) ++
    (if countSub beginMarker src == countSub endMarker src then []
     else [⟨IssueKind.unbalancedEnvironments, none⟩]) ++
    ((chunks src).2.filter (fun c => isBlank (chunkBody c))).map
      (fun _ => ⟨IssueKind.emptySection, none⟩)
  { is_healthy := issues.isEmpty
    score := 100 - min 100 (25 * issues.length)
    issues := issues }

/-! Helper lemmas about the boundary scanner and the chunk operations. -/

lemma marker_length : marker.length = 9 := rfl

lemma isPrefixOf_append_drop {l s : List Char} (h : l.isPrefixOf s = true) :
    l ++ s.drop l.length = s := by
  have h2 : l <+: s := by
    exact List.isPrefixOf_iff_prefix.mp h
  exact List.prefix_iff_eq_append.mp h2

lemma joinMarked_nil : joinMarked [] = [] := rfl

lemma joinMarked_cons (c : List Char) (cs : List (List Char)) :
    joinMarked (c :: cs) = marker ++ c ++ joinMarked cs := by
  simp [joinMarked, List.append_assoc]

lemma joinMarked_append (cs₁ cs₂ : List (List Char)) :
    joinMarked (cs₁ ++ cs₂) = joinMarked cs₁ ++ joinMarked cs₂ := by
  simp [joinMarked]

lemma chunksF_join :
    ∀ (fuel : Nat) (s : List Char), s.length ≤ fuel →
      (chunksF fuel s).1 ++ joinMarked (chunksF fuel s).2 = s := by
  intro fuel
  induction fuel with
  | zero =>
    intro s hs
    have h0 : s = [] := List.eq_nil_of_length_eq_zero (Nat.le_zero.mp hs)
    subst h0
    simp [chunksF, joinMarked]
  | succ n ih =>
    intro s hs
    by_cases h : marker.isPrefixOf s
    · have hlen : (s.drop marker.length).length ≤ n := by
        simp only [List.length_drop, marker_length]
        omega
      have hrec := ih (s.drop marker.length) hlen
      simp only [chunksF, h, if_true]
      rw [List.nil_append, joinMarked_cons, List.append_assoc, hrec]
      exact isPrefixOf_append_drop h
    · match s with
      | [] => simp [chunksF, h, joinMarked]
      | c :: rest =>
        have hlen : rest.length ≤ n := by
          simp only [List.length_cons] at hs
          omega
        have hrec := ih rest hlen
        simp only [chunksF, h, Bool.false_eq_true, if_false, List.cons_append]
        rw [hrec]

lemma chunks_join (s : List Char) :
    (chunks s).1 ++ joinMarked (chunks s).2 = s :=
  chunksF_join s.length s (Nat.le_refl _)

lemma extract_replace_chunks :
    ∀ (cs : List (List Char)) (n : List Char),
      (∃ c ∈ cs, chunkName c = n) →
      ∃ t, extractInChunks n cs = some t ∧
        replaceInChunks n t cs = some (joinMarked cs) := by
  intro cs
  induction cs with
  | nil =>
    intro n hn
    rcases hn with ⟨c, hc, _⟩
    exact absurd hc (List.not_mem_nil c)
  | cons c cs ih =>
    intro n hn
    by_cases h : chunkName c = n
    · refine ⟨marker ++ c, ?_, ?_⟩
      · simp [extractInChunks, h]
      · simp [replaceInChunks, h, joinMarked_cons, List.append_assoc]
    · have htail : ∃ c' ∈ cs, chunkName c' = n := by
        rcases hn with ⟨c', hc', hcn⟩
        rcases List.mem_cons.mp hc' with rfl | hmem
        · exact absurd hcn h
        · exact ⟨c', hmem, hcn⟩
      rcases ih n htail with ⟨t, hext, hrep⟩
      refine ⟨t, ?_, ?_⟩
      · simp [extractInChunks, h, hext]
      · simp [replaceInChunks, h, hrep, joinMarked_cons, List.append_assoc]

lemma mkSections_mem_name :
    ∀ (cs : List (List Char)) (base : Nat) (s : Section),
      s ∈ mkSections base cs → ∃ c ∈ cs, chunkName c = s.name := by
  intro cs
  induction cs with
  | nil => intro base s hs; simp [mkSections] at hs
  | cons c cs ih =>
    intro base s hs
    simp only [mkSections, List.mem_cons] at hs
    rcases hs with rfl | hs
    · exact ⟨c, List.mem_cons_self c cs, rfl⟩
    · rcases ih _ s hs with ⟨c', hc', hn⟩
      exact ⟨c', List.mem_cons_of_mem c hc', hn⟩

/-- C1.  Round-trip law: for every parsed Document `doc` and every Section
`s` of `doc`, replacing `s` by the text just extracted from it reproduces
the original document exactly, byte for byte. -/
theorem roundTrip_law (src : List Char) (s : Section)
    (hs : s ∈ parseSections src) :
    ∃ t, extractSpan src (some s.name) = some t ∧
      replaceSpan src (some s.name) t = Except.ok src := by
  have hchunk : ∃ c ∈ (chunks src).2, chunkName c = s.name :=
    mkSections_mem_name _ _ _ hs
  rcases extract_replace_chunks _ _ hchunk with ⟨t, hext, hrep⟩
  refine ⟨t, ?_, ?_⟩
  · simpa [extractSpan] using hext
  · simp only [replaceSpan, hrep]
    rw [chunks_join]

/-- Concrete example document with two sections, used by the witnesses:
the text `pre\section` `{` `Edu` `}` newline `BS` newline `\section` `{`
`Exp` `}` newline `Eng` newline. -/
def exampleDoc : List Char :=
  "pre\\section".toList ++ [obrace] ++ "Edu".toList ++ [cbrace] ++
    "\nBS\n\\section".toList ++ [obrace] ++ "Exp".toList ++ [cbrace] ++
    "\nEng\n".toList

/-- Witness for C1 at a concrete two-section document. -/
theorem roundTrip_law_witness :
    ∃ t, extractSpan exampleDoc (some "Edu".toList) = some t ∧
      replaceSpan exampleDoc (some "Edu".toList) t = Except.ok exampleDoc := by
  exact roundTrip_law exampleDoc ⟨"Edu".toList, 3, 20⟩ (by decide)

/-- C7.  Full-document selector identities: extraction with a null selector
returns the whole document, and replacement with a null selector returns
exactly the replacement text. -/
theorem fullDocument_selector (src x : List Char) :
    extractSpan src none = some src ∧ replaceSpan src none x = Except.ok x :=
  ⟨rfl, rfl⟩

/-- C4.  Self-heal termination: the repair loop performs at most
`maxAttempts` generative calls for every compiler, every generative
service (including one returning identical broken text each round), and
every source; and when the first compile succeeds it returns immediately
with zero generative calls. -/
theorem compileWithRepair_bounded (compile : List Char → CompileResult)
    (repair : List Char → List Char → List Char) (maxAttempts : Nat)
    (src : List Char) :
    (compileWithRepair compile repair maxAttempts src).genCalls ≤ maxAttempts ∧
    ((compile src).ok = true →
      compileWithRepair compile repair maxAttempts src = ⟨src, compile src, 0⟩) := by
  constructor
  · induction maxAttempts generalizing src with
    | zero => simp [compileWithRepair]
    | succ n ih =>
      by_cases h : (compile src).ok
      · simp [compileWithRepair, h]
      · simp only [compileWithRepair, h, Bool.false_eq_true, if_false]
        exact Nat.succ_le_succ (ih _)
  · intro h
    cases maxAttempts with
    | zero => simp [compileWithRepair]
    | succ n => simp [compileWithRepair, h]

/-- Witness for C4: a compiler that always fails and a generative service
that returns its input unchanged stay within the budget, and a compiler
that succeeds at once induces an immediate return. -/
theorem compileWithRepair_bounded_witness :
    (compileWithRepair (fun _ => ⟨false, none, ['e']⟩) (fun s _ => s) 3
        ['x']).genCalls ≤ 3 ∧
      compileWithRepair (fun _ => ⟨true, some [1], []⟩) (fun s _ => s) 3 ['x'] =
        ⟨['x'], ⟨true, some [1], []⟩, 0⟩ :=
  ⟨(compileWithRepair_bounded (fun _ => ⟨false, none, ['e']⟩) (fun s _ => s) 3
      ['x']).1,
   (compileWithRepair_bounded (fun _ => ⟨true, some [1], []⟩) (fun s _ => s) 3
      ['x']).2 rfl⟩

/-- C5.  Self-heal exhaustion: when every compile along the chain fails,
the loop returns (rather than throwing — it is a total function) the last
attempted source paired with that source's failing compile result, after
exactly `maxAttempts` generative calls. -/
theorem compileWithRepair_exhaustion (compile : List Char → CompileResult)
    (repair : List Char → List Char → List Char) (maxAttempts : Nat)
    (src : List Char) (h : ∀ d, (compile d).ok = false) :
    compileWithRepair compile repair maxAttempts src =
      ⟨lastAttempt compile repair maxAttempts src,
       compile (lastAttempt compile repair maxAttempts src), maxAttempts⟩ := by
  induction maxAttempts generalizing src with
  | zero => simp [compileWithRepair, lastAttempt]
  | succ n ih =>
    simp only [compileWithRepair, h src, Bool.false_eq_true, if_false,
      lastAttempt]
    rw [ih (repair src (compile src).log)]

/-- Witness for C5 with an always-failing compiler and a repair service
that appends a character each round. -/
theorem compileWithRepair_exhaustion_witness :
    compileWithRepair (fun _ => ⟨false, none, ['e']⟩) (fun s _ => s ++ ['r']) 3
        ['x'] =
      ⟨['x', 'r', 'r', 'r'], ⟨false, none, ['e']⟩, 3⟩ := by
  have h := compileWithRepair_exhaustion (fun _ => ⟨false, none, ['e']⟩)
    (fun s _ => s ++ ['r']) 3 ['x'] (fun _ => rfl)
  simpa [lastAttempt] using h

/-- C10.  Snapshot-history bound: after every `handleSnapshot` call the
snapshot list has at most five entries and the newest snapshot first, and
a snapshot taken over a full five-entry history drops exactly the oldest
retained entry. -/
theorem handleSnapshot_bound (snap : Snapshot) (prev : List Snapshot) :
    (handleSnapshot snap prev).length ≤ 5 ∧
    (handleSnapshot snap prev).head? = some snap ∧
    (prev.length = 5 → handleSnapshot snap prev = snap :: prev.dropLast) := by
  refine ⟨?_, ?_, ?_⟩
  · simp [handleSnapshot]
  · simp [handleSnapshot, List.take_succ_cons]
  · intro h5
    simp only [handleSnapshot, List.take_succ_cons, List.dropLast_eq_take, h5]

/-- Witness for C10 over a concrete full history of five snapshots. -/
theorem handleSnapshot_bound_witness :
    (handleSnapshot ⟨6, [], [], []⟩
        [⟨5, [], [], []⟩, ⟨4, [], [], []⟩, ⟨3, [], [], []⟩, ⟨2, [], [], []⟩,
         ⟨1, [], [], []⟩]).length ≤ 5 ∧
      (handleSnapshot ⟨6, [], [], []⟩
          [⟨5, [], [], []⟩, ⟨4, [], [], []⟩, ⟨3, [], [], []⟩, ⟨2, [], [], []⟩,
           ⟨1, [], [], []⟩]).head? = some ⟨6, [], [], []⟩ ∧
      handleSnapshot ⟨6, [], [], []⟩
          [⟨5, [], [], []⟩, ⟨4, [], [], []⟩, ⟨3, [], [], []⟩, ⟨2, [], [], []⟩,
           ⟨1, [], [], []⟩] =
        ⟨6, [], [], []⟩ ::
          [⟨5, [], [], []⟩, ⟨4, [], [], []⟩, ⟨3, [], [], []⟩, ⟨2, [], [], []⟩,
           ⟨1, [], [], []⟩].dropLast := by
  have h := handleSnapshot_bound ⟨6, [], [], []⟩
    [⟨5, [], [], []⟩, ⟨4, [], [], []⟩, ⟨3, [], [], []⟩, ⟨2, [], [], []⟩,
     ⟨1, [], [], []⟩]
  exact ⟨h.1, h.2.1, h.2.2 rfl⟩

/-- C3.  Apply atomicity: whenever the backend `apply` call fails (session
missing, candidate missing, or the splice raising `SectionNotFound`), the
document held by the caller after `applyVariant` is byte-for-byte the
input document; only an error message is appended. -/
theorem apply_atomicity (st : AppState) (sessions : List ProposalSession)
    (sid cid : Nat) (compile : List Char → CompileResult)
    (repair : List Char → List Char → List Char) (maxAttempts : Nat)
    (e : ApplyError)
    (h : apply sessions sid cid st.latexCode compile repair maxAttempts =
      Except.error e) :
    applyVariant st
        (apply sessions sid cid st.latexCode compile repair maxAttempts) =
      { st with messages := st.messages ++ [failMsg] } := by
  rw [h]
  rfl

/-- Witness for C3: a session targeting a section name absent from the
document makes the splice fail with `SectionNotFound`, and the caller's
document survives unchanged. -/
theorem apply_atomicity_witness :
    applyVariant ⟨exampleDoc, []⟩
        (apply
          [⟨7, [], some "Nonexistent".toList, exampleDoc, [⟨0, [], [], ['y']⟩]⟩]
          7 0 exampleDoc (fun _ => ⟨true, some [1], []⟩) (fun s _ => s) 3) =
      ⟨exampleDoc, [failMsg]⟩ := by
  exact apply_atomicity ⟨exampleDoc, []⟩
    [⟨7, [], some "Nonexistent".toList, exampleDoc, [⟨0, [], [], ['y']⟩]⟩]
    7 0 (fun _ => ⟨true, some [1], []⟩) (fun s _ => s) 3 .sectionNotFound
    (by rfl)

/-- C9.  Health check on an unbalanced document: `checkHealth` is a plain
function of the source text alone (by its type it can invoke neither the
generative service nor the compiler), and whenever the brace scan finds an
unmatched brace it reports unhealthy with a nonzero issue count, whatever
the rest of the document looks like. -/
theorem checkHealth_unbalanced (src : List Char)
    (h : braceScan src 0 = false) :
    (checkHealth src).is_healthy = false ∧
      (checkHealth src).issues.length ≠ 0 := by
  constructor
  · simp [checkHealth, h]
  · simp [checkHealth, h]

/-- Witness for C9: a document that is just an opening brace followed by a
letter (it contains an unmatched opening brace). -/
theorem checkHealth_unbalanced_witness :
    (checkHealth [obrace, 'x']).is_healthy = false ∧
      (checkHealth [obrace, 'x']).issues.length ≠ 0 :=
  checkHealth_unbalanced [obrace, 'x'] (by decide)

lemma replaceInChunks_eq_none (n x : List Char) :
    ∀ cs : List (List Char), (∀ c ∈ cs, chunkName c ≠ n) →
      replaceInChunks n x cs = none := by
  intro cs
  induction cs with
  | nil => intro _; rfl
  | cons c cs ih =>
    intro h
    have hc : chunkName c ≠ n := h c (List.mem_cons_self c cs)
    have ht := ih (fun c' hc' => h c' (List.mem_cons_of_mem c hc'))
    simp [replaceInChunks, hc, ht]

lemma mkSections_name_of_chunk :
    ∀ (cs : List (List Char)) (base : Nat) (c : List Char), c ∈ cs →
      ∃ s ∈ mkSections base cs, s.name = chunkName c := by
  intro cs
  induction cs with
  | nil => intro base c hc; exact absurd hc (List.not_mem_nil c)
  | cons c₀ cs ih =>
    intro base c hc
    rcases List.mem_cons.mp hc with rfl | hmem
    · exact ⟨⟨chunkName c, base, base + marker.length + c.length⟩,
        List.mem_cons_self _ _, rfl⟩
    · rcases ih (base + marker.length + c₀.length) c hmem with ⟨s, hs, hn⟩
      exact ⟨s, List.mem_cons_of_mem _ hs, hn⟩

/-- C6.  Missing-section error: when no section of the document bears the
requested name, `replaceSpan` yields `SectionNotFound` instead of
rewriting anything, and an `apply` call whose session targets that name
fails the same way, leaving the caller's document unchanged. -/
theorem replaceSpan_missing (src n x : List Char)
    (h : ∀ s ∈ parseSections src, s.name ≠ n) :
    replaceSpan src (some n) x = Except.error SectionError.sectionNotFound ∧
    ∀ (st : AppState) (sessions : List ProposalSession) (sid cid : Nat)
      (sess : ProposalSession) (cand : Candidate)
      (compile : List Char → CompileResult)
      (repair : List Char → List Char → List Char) (maxAttempts : Nat),
      sessions.find? (fun s => s.sid == sid) = some sess →
      sess.target = some n →
      sess.candidates.find? (fun c => c.id == cid) = some cand →
      st.latexCode = src →
      apply sessions sid cid st.latexCode compile repair maxAttempts =
        Except.error ApplyError.sectionNotFound ∧
      (applyVariant st
          (apply sessions sid cid st.latexCode compile repair
            maxAttempts)).latexCode = src := by
  have hnames : ∀ c ∈ (chunks src).2, chunkName c ≠ n := by
    intro c hc
    rcases mkSections_name_of_chunk (chunks src).2 (chunks src).1.length c hc
      with ⟨s, hs, hname⟩
    rw [← hname]
    exact h s hs
  have hrep : ∀ y : List Char,
      replaceSpan src (some n) y = Except.error SectionError.sectionNotFound := by
    intro y
    simp [replaceSpan, replaceInChunks_eq_none n y (chunks src).2 hnames]
  refine ⟨hrep x, ?_⟩
  intro st sessions sid cid sess cand compile repair maxAttempts hfind htarget
    hcand hdoc
  have happ : apply sessions sid cid st.latexCode compile repair maxAttempts =
      Except.error ApplyError.sectionNotFound := by
    simp [apply, hfind, hcand, htarget, hdoc, hrep cand.text]
  refine ⟨happ, ?_⟩
  rw [happ]
  exact hdoc

/-- Witness for C6: the section name `Nonexistent` is absent from the
concrete two-section document, so both the splice and the apply call fail
with `SectionNotFound` while the document survives. -/
theorem replaceSpan_missing_witness :
    replaceSpan exampleDoc (some "Nonexistent".toList) ['y'] =
        Except.error SectionError.sectionNotFound ∧
      apply [⟨7, [], some "Nonexistent".toList, exampleDoc,
            [⟨0, [], [], ['y']⟩]⟩] 7 0 exampleDoc
          (fun _ => ⟨true, some [1], []⟩) (fun s _ => s) 3 =
        Except.error ApplyError.sectionNotFound := by
  have h := replaceSpan_missing exampleDoc "Nonexistent".toList ['y'] (by decide)
  refine ⟨h.1, ?_⟩
  have h2 := (h.2 ⟨exampleDoc, []⟩
    [⟨7, [], some "Nonexistent".toList, exampleDoc, [⟨0, [], [], ['y']⟩]⟩]
    7 0 ⟨7, [], some "Nonexistent".toList, exampleDoc, [⟨0, [], [], ['y']⟩]⟩
    ⟨0, [], [], ['y']⟩ (fun _ => ⟨true, some [1], []⟩) (fun s _ => s) 3
    (by rfl) rfl (by rfl) rfl).1
  exact h2

lemma mkSections_head_start :
    ∀ (cs : List (List Char)) (base : Nat) (y : Section),
      y ∈ (mkSections base cs).head? → y.start = base := by
  intro cs base y hy
  cases cs with
  | nil => simp [mkSections] at hy
  | cons c cs =>
    simp only [mkSections, List.head?_cons, Option.mem_def,
      Option.some.injEq] at hy
    rw [← hy]

lemma mkSections_chain :
    ∀ (cs : List (List Char)) (base : Nat),
      List.Chain' (fun a b => a.stop = b.start) (mkSections base cs) := by
  intro cs
  induction cs with
  | nil => intro base; simp [mkSections]
  | cons c cs ih =>
    intro base
    simp only [mkSections]
    refine List.chain'_cons'.mpr ⟨?_, ih _⟩
    intro y hy
    exact (mkSections_head_start cs _ y hy).symm

lemma mkSections_start_lt_stop :
    ∀ (cs : List (List Char)) (base : Nat) (s : Section),
      s ∈ mkSections base cs → s.start < s.stop := by
  intro cs
  induction cs with
  | nil => intro base s hs; simp [mkSections] at hs
  | cons c cs ih =>
    intro base s hs
    simp only [mkSections, List.mem_cons] at hs
    rcases hs with rfl | hs
    · simp only [marker_length]
      omega
    · exact ih _ s hs

lemma mkSections_spanAt :
    ∀ (cs : List (List Char)) (pre src : List Char),
      src = pre ++ joinMarked cs →
      (mkSections pre.length cs).map (spanAt src) =
        cs.map (fun c => marker ++ c) := by
  intro cs
  induction cs with
  | nil => intro pre src _; simp [mkSections]
  | cons c cs ih =>
    intro pre src hsrc
    have hsrc' : src = (pre ++ (marker ++ c)) ++ joinMarked cs := by
      rw [hsrc, joinMarked_cons]
      simp [List.append_assoc]
    have hspan :
        spanAt src ⟨chunkName c, pre.length,
          pre.length + marker.length + c.length⟩ = marker ++ c := by
      unfold spanAt
      have hdrop : src.drop pre.length = (marker ++ c) ++ joinMarked cs := by
        rw [hsrc, joinMarked_cons, ← List.append_assoc]
        rw [List.append_assoc pre (marker ++ c) (joinMarked cs)]
        exact List.drop_left pre _
      simp only [hdrop]
      have hlen : (marker ++ c).length =
          pre.length + marker.length + c.length - pre.length := by
        simp only [List.length_append]
        omega
      rw [← hlen]
      exact List.take_left (marker ++ c) _
    have hbase : pre.length + marker.length + c.length =
        (pre ++ (marker ++ c)).length := by
      simp [List.length_append, List.append_assoc]
      omega
    simp only [mkSections, List.map_cons, hspan]
    congr 1
    rw [hbase]
    exact ih (pre ++ (marker ++ c)) src hsrc'

lemma mkSections_last_stop :
    ∀ (cs : List (List Char)) (base : Nat), cs ≠ [] →
      ((mkSections base cs).getLast?).map Section.stop =
        some (base + (joinMarked cs).length) := by
  intro cs
  induction cs with
  | nil => intro base h; exact absurd rfl h
  | cons c cs ih =>
    intro base _
    cases cs with
    | nil =>
      simp [mkSections, joinMarked_cons, joinMarked_nil, List.length_append,
        marker_length]
      omega
    | cons c' cs' =>
      have htail := ih (base + marker.length + c.length)
        (List.cons_ne_nil c' cs')
      have hlen : base + marker.length + c.length +
          (joinMarked (c' :: cs')).length =
          base + (joinMarked (c :: c' :: cs')).length := by
        rw [joinMarked_cons c (c' :: cs')]
        simp [List.length_append]
        omega
      simp only [mkSections] at htail ⊢
      rw [List.getLast?_cons_cons, htail, hlen]

/-- C8.  Parse invariant: the sections returned by `parseSections` are
adjacent spans in order of appearance (each section ends where the next
starts and every span is nonempty, so spans are non-overlapping and
ordered), and the preamble followed by the concatenation of all section
spans reconstructs the document byte for byte, the last section ending at
the end of the document. -/
theorem parseSections_invariant (src : List Char) :
    List.Chain' (fun a b => a.stop = b.start) (parseSections src) ∧
    (∀ s ∈ parseSections src, s.start < s.stop) ∧
    src.take (((parseSections src).head?.map Section.start).getD src.length) ++
      ((parseSections src).map (spanAt src)).flatten = src ∧
    ((parseSections src).getLast?.map Section.stop).getD src.length =
      src.length := by
  have hsrc : (chunks src).1 ++ joinMarked (chunks src).2 = src :=
    chunks_join src
  have hspan : ((parseSections src).map (spanAt src)).flatten =
      joinMarked (chunks src).2 := by
    unfold parseSections
    rw [mkSections_spanAt (chunks src).2 (chunks src).1 src hsrc.symm]
    rfl
  refine ⟨mkSections_chain _ _, fun s hs => mkSections_start_lt_stop _ _ s hs,
    ?_, ?_⟩
  · rcases hcs : (chunks src).2 with _ | ⟨c, cs⟩
    · have hp : parseSections src = [] := by
        unfold parseSections
        rw [hcs]
        rfl
      simp [hp]
    · have hp : (parseSections src).head? =
          some ⟨chunkName c, (chunks src).1.length,
            (chunks src).1.length + marker.length + c.length⟩ := by
        unfold parseSections
        rw [hcs]
        rfl
      rw [hspan, hp]
      show src.take (chunks src).1.length ++ joinMarked (chunks src).2 = src
      set p := (chunks src).1 with hpdef
      set j := joinMarked (chunks src).2 with hjdef
      rw [← hsrc]
      congr 1
      exact List.take_left p j
  · rcases hcs : (chunks src).2 with _ | ⟨c, cs⟩
    · have hp : parseSections src = [] := by
        unfold parseSections
        rw [hcs]
        rfl
      rw [hp]
      rfl
    · have hlast := mkSections_last_stop (c :: cs) (chunks src).1.length
        (List.cons_ne_nil c cs)
      have hlen2 : src.length =
          (chunks src).1.length + (joinMarked (c :: cs)).length := by
        conv_lhs => rw [← hsrc, hcs]
        simp [List.length_append]
      unfold parseSections
      rw [hcs, hlast]
      simp only [Option.getD_some]
      omega

lemma replaceInChunks_eq_some :
    ∀ (cs : List (List Char)) (n x r : List Char),
      replaceInChunks n x cs = some r →
      ∃ cs₁ c cs₂, cs = cs₁ ++ c :: cs₂ ∧
        (∀ c' ∈ cs₁, chunkName c' ≠ n) ∧ chunkName c = n ∧
        r = joinMarked cs₁ ++ x ++ joinMarked cs₂ := by
  intro cs
  induction cs with
  | nil => intro n x r h; simp [replaceInChunks] at h
  | cons c cs ih =>
    intro n x r h
    by_cases hc : chunkName c = n
    · simp only [replaceInChunks, hc, if_true, Option.some.injEq] at h
      refine ⟨[], c, cs, rfl, by simp, hc, ?_⟩
      rw [← h, joinMarked_nil, List.nil_append]
    · simp only [replaceInChunks, hc, if_false, Option.map_eq_some'] at h
      rcases h with ⟨r', hr', hmap⟩
      rcases ih n x r' hr' with ⟨cs₁, c₀, cs₂, hsplit, h₁, h₂, hr⟩
      refine ⟨c :: cs₁, c₀, cs₂, by rw [hsplit]; rfl, ?_, h₂, ?_⟩
      · intro c' hc'
        rcases List.mem_cons.mp hc' with rfl | hmem
        · exact hc
        · exact h₁ c' hmem
      · rw [← hmap, hr, joinMarked_cons]
        simp [List.append_assoc]

lemma extractInChunks_first :
    ∀ (cs₁ : List (List Char)) (c : List Char) (cs₂ : List (List Char))
      (n : List Char), (∀ c' ∈ cs₁, chunkName c' ≠ n) → chunkName c = n →
      extractInChunks n (cs₁ ++ c :: cs₂) = some (marker ++ c) := by
  intro cs₁
  induction cs₁ with
  | nil =>
    intro c cs₂ n _ hc
    simp [extractInChunks, hc]
  | cons c₁ cs₁ ih =>
    intro c cs₂ n h₁ hc
    have hne : chunkName c₁ ≠ n := h₁ c₁ (List.mem_cons_self c₁ cs₁)
    simp only [List.cons_append, extractInChunks, hne, if_false]
    exact ih c cs₂ n (fun c' hc' => h₁ c' (List.mem_cons_of_mem c₁ hc')) hc

lemma mkSections_mem_append :
    ∀ (cs₁ : List (List Char)) (c : List Char) (cs₂ : List (List Char))
      (base : Nat),
      (⟨chunkName c, base + (joinMarked cs₁).length,
        base + (joinMarked cs₁).length + marker.length + c.length⟩ :
          Section) ∈ mkSections base (cs₁ ++ c :: cs₂) := by
  intro cs₁
  induction cs₁ with
  | nil =>
    intro c cs₂ base
    simp [mkSections, joinMarked_nil]
  | cons c₁ cs₁ ih =>
    intro c cs₂ base
    have harith : base + (joinMarked (c₁ :: cs₁)).length =
        base + marker.length + c₁.length + (joinMarked cs₁).length := by
      rw [joinMarked_cons]
      simp only [List.length_append]
      omega
    simp only [List.cons_append, mkSections, List.mem_cons]
    right
    rw [harith]
    exact ih c cs₂ (base + marker.length + c₁.length)

lemma mkSections_start_ge :
    ∀ (cs : List (List Char)) (base : Nat) (s : Section),
      s ∈ mkSections base cs → base ≤ s.start := by
  intro cs
  induction cs with
  | nil => intro base s hs; simp [mkSections] at hs
  | cons c cs ih =>
    intro base s hs
    simp only [mkSections, List.mem_cons] at hs
    rcases hs with rfl | hs
    · exact Nat.le_refl _
    · have := ih _ s hs
      omega

lemma mkSections_pairwise :
    ∀ (cs : List (List Char)) (base : Nat),
      (mkSections base cs).Pairwise (fun a b => a.stop ≤ b.start) := by
  intro cs
  induction cs with
  | nil => intro base; simp [mkSections]
  | cons c cs ih =>
    intro base
    simp only [mkSections]
    refine List.Pairwise.cons ?_ (ih _)
    intro b hb
    exact mkSections_start_ge cs _ b hb

lemma take_of_append (a b : List Char) (k : Nat) (hk : k = a.length) :
    (a ++ b).take k = a := by
  rw [hk]
  exact List.take_left a b

lemma drop_of_append (a b : List Char) (k : Nat) (hk : k = a.length) :
    (a ++ b).drop k = b := by
  rw [hk]
  exact List.drop_left a b

/-- C2.  Isolation: a successful `replaceSpan` on section `a` substitutes
only `a`'s span — the result is the bytes before the span, then the new
text, then the bytes after the span, all preserved verbatim — and every
other section of the document (in particular any section `b ≠ a`, the
preamble, and the closing material) lies entirely inside the preserved
region, its span being disjoint from the addressed one. -/
theorem replaceSpan_isolation (src n x out : List Char)
    (h : replaceSpan src (some n) x = Except.ok out) :
    ∃ s ∈ parseSections src, s.name = n ∧
      extractSpan src (some n) = some (spanAt src s) ∧
      out = src.take s.start ++ x ++ src.drop s.stop ∧
      ∀ sb ∈ parseSections src, sb ≠ s →
        sb.stop ≤ s.start ∨ s.stop ≤ sb.start := by
  rcases hrc : replaceInChunks n x (chunks src).2 with _ | r
  · rw [replaceSpan, hrc] at h
    exact absurd h (by simp)
  · rw [replaceSpan, hrc] at h
    have hout : out = (chunks src).1 ++ r := by
      cases h
      rfl
    rcases replaceInChunks_eq_some _ n x r hrc with
      ⟨cs₁, c, cs₂, hsplit, h₁, h₂, hr⟩
    have hsrc : (chunks src).1 ++ joinMarked (chunks src).2 = src :=
      chunks_join src
    have hdecomp : ((chunks src).1 ++ joinMarked cs₁) ++
        ((marker ++ c) ++ joinMarked cs₂) = src := by
      conv_rhs => rw [← hsrc]
      rw [hsplit, joinMarked_append, joinMarked_cons]
      simp [List.append_assoc]
    have hdecomp2 : (((chunks src).1 ++ joinMarked cs₁) ++ (marker ++ c)) ++
        joinMarked cs₂ = src := by
      conv_rhs => rw [← hdecomp]
      simp [List.append_assoc]
    have htake : src.take ((chunks src).1.length + (joinMarked cs₁).length) =
        (chunks src).1 ++ joinMarked cs₁ := by
      have h0 := take_of_append ((chunks src).1 ++ joinMarked cs₁)
        ((marker ++ c) ++ joinMarked cs₂)
        ((chunks src).1.length + (joinMarked cs₁).length)
        (by simp [List.length_append])
      rw [hdecomp] at h0
      exact h0
    have hdrop : src.drop ((chunks src).1.length + (joinMarked cs₁).length) =
        (marker ++ c) ++ joinMarked cs₂ := by
      have h0 := drop_of_append ((chunks src).1 ++ joinMarked cs₁)
        ((marker ++ c) ++ joinMarked cs₂)
        ((chunks src).1.length + (joinMarked cs₁).length)
        (by simp [List.length_append])
      rw [hdecomp] at h0
      exact h0
    have hdropstop : src.drop ((chunks src).1.length +
        (joinMarked cs₁).length + marker.length + c.length) =
        joinMarked cs₂ := by
      have h0 := drop_of_append
        (((chunks src).1 ++ joinMarked cs₁) ++ (marker ++ c)) (joinMarked cs₂)
        ((chunks src).1.length + (joinMarked cs₁).length + marker.length +
          c.length)
        (by simp only [List.length_append]; omega)
      rw [hdecomp2] at h0
      exact h0
    have hmem : (⟨chunkName c,
        (chunks src).1.length + (joinMarked cs₁).length,
        (chunks src).1.length + (joinMarked cs₁).length + marker.length +
          c.length⟩ : Section) ∈ parseSections src := by
      unfold parseSections
      rw [hsplit]
      exact mkSections_mem_append cs₁ c cs₂ (chunks src).1.length
    have hspan : spanAt src ⟨chunkName c,
        (chunks src).1.length + (joinMarked cs₁).length,
        (chunks src).1.length + (joinMarked cs₁).length + marker.length +
          c.length⟩ = marker ++ c := by
      unfold spanAt
      simp only
      rw [hdrop]
      have h0 := take_of_append (marker ++ c) (joinMarked cs₂)
        ((chunks src).1.length + (joinMarked cs₁).length + marker.length +
            c.length -
          ((chunks src).1.length + (joinMarked cs₁).length))
        (by simp only [List.length_append]; omega)
      exact h0
    refine ⟨⟨chunkName c,
      (chunks src).1.length + (joinMarked cs₁).length,
      (chunks src).1.length + (joinMarked cs₁).length + marker.length +
        c.length⟩, hmem, h₂, ?_, ?_, ?_⟩
    · rw [hspan]
      show extractInChunks n (chunks src).2 = some (marker ++ c)
      rw [hsplit]
      exact extractInChunks_first cs₁ c cs₂ n h₁ h₂
    · show out = src.take ((chunks src).1.length + (joinMarked cs₁).length) ++
        x ++ src.drop ((chunks src).1.length + (joinMarked cs₁).length +
          marker.length + c.length)
      rw [htake, hdropstop, hout, hr]
      simp [List.append_assoc]
    · intro sb hsb hne
      have hpw : (parseSections src).Pairwise (fun a b => a.stop ≤ b.start) :=
        mkSections_pairwise _ _
      have hpw2 : (parseSections src).Pairwise
          (fun a b => a.stop ≤ b.start ∨ b.stop ≤ a.start) :=
        hpw.imp (fun hab => Or.inl hab)
      exact hpw2.forall (fun a b hab => hab.symm) hsb hmem hne

/-- Witness for C2: replacing the `Edu` span of the concrete two-section
document by the three characters `XYZ`. -/
theorem replaceSpan_isolation_witness :
    ∃ s ∈ parseSections exampleDoc, s.name = "Edu".toList ∧
      extractSpan exampleDoc (some "Edu".toList) =
        some (spanAt exampleDoc s) ∧
      "preXYZ\\section".toList ++ [obrace] ++ "Exp".toList ++ [cbrace] ++
          "\nEng\n".toList =
        exampleDoc.take s.start ++ "XYZ".toList ++ exampleDoc.drop s.stop ∧
      ∀ sb ∈ parseSections exampleDoc, sb ≠ s →
        sb.stop ≤ s.start ∨ s.stop ≤ sb.start := by
  exact replaceSpan_isolation exampleDoc "Edu".toList "XYZ".toList
    ("preXYZ\\section".toList ++ [obrace] ++ "Exp".toList ++ [cbrace] ++
      "\nEng\n".toList) (by rfl)

/-- Witness for C8 at the concrete two-section document. -/
theorem parseSections_invariant_witness :
    List.Chain' (fun a b => a.stop = b.start) (parseSections exampleDoc) ∧
    (∀ s ∈ parseSections exampleDoc, s.start < s.stop) ∧
    exampleDoc.take
        (((parseSections exampleDoc).head?.map Section.start).getD
          exampleDoc.length) ++
      ((parseSections exampleDoc).map (spanAt exampleDoc)).flatten =
        exampleDoc ∧
    ((parseSections exampleDoc).getLast?.map Section.stop).getD
        exampleDoc.length = exampleDoc.length :=
  parseSections_invariant exampleDoc
